import Mathlib

/-!
Verification of the bloom_filter crate (hgzimmerman/bloom_filter).

This file gives a shallow embedding of the crate and proves properties of it:

* the bit vector (crate bit_vec) is a `List Bool`; setting a bit is `List.set`,
  reading a bit is `List.getD` (in-range reads agree with the Rust indexing);
* hash strategies are functions `value → modulus → List Nat`, matching the
  HashToIndices trait in src/hash_to_indicies.rs; the concrete chained
  strategy ReHasher (src/rehasher.rs) over the murmur3 crate MurmurHasher is
  modelled down to the byte level;
* the four filter types (src/bloom_filter.rs, src/w_lock_bloom_filter.rs,
  src/counting_bloom_filter.rs, src/counting_w_lock_bloom_filter.rs) are
  structures with insert and contains operations translated line by line;
* the parameter calculator (src/lib.rs) is modelled over the real numbers,
  with f64 idealised as an exact real and the Rust float-to-usize cast
  modelled as the saturating truncation it performs.
-/

/- ===================== Bit vector primitives ===================== -/

/-- Model of the insert loop body over the backing bit vector:
for each index in the list, set that bit to true
(src/bloom_filter.rs lines 151-156). Out-of-range indices never arise in the
claims proved here because strategies reduce hashes modulo the length. -/
def insertBits (bits : List Bool) (idxs : List Nat) : List Bool :=
  idxs.foldl (fun b i => b.set i true) bits

/-- Model of reading one bit of the backing bit vector, as in the contains
loop (src/bloom_filter.rs lines 180-185). In-range reads agree with the Rust
indexing operator. -/
def bitGet (bits : List Bool) (i : Nat) : Bool := bits.getD i false

/-- Model of the contains loop: all hashed indices must be set
(src/bloom_filter.rs lines 180-185). -/
def testBits (bits : List Bool) (idxs : List Nat) : Bool :=
  idxs.all (fun i => bitGet bits i)

/-- Fold of insertBits over a list of values, hashing each value with a fixed
strategy and a fixed modulus. Used both for sequential insertion sequences and
for serialisations of concurrent insert schedules. -/
def foldInserts {α : Type} (hti : α → Nat → List Nat) (m : Nat)
    (bits : List Bool) (vs : List α) : List Bool :=
  vs.foldl (fun b v => insertBits b (hti v m)) bits

/- ===================== Murmur digest and ReHasher ===================== -/

/-- Modelled from the spec: 32-bit left rotation, part of the documented
MurmurHash-family digest (the murmur3 crate is an external collaborator, not
under src/). Inputs below 2 to the 32 stay below 2 to the 32. -/
def rotl32 (x r : Nat) : Nat := ((x <<< r) ||| (x >>> (32 - r))) % 4294967296

/-- Modelled from the spec: the MurmurHash3 x86 32-bit finalisation mix. -/
def fmix32 (h0 : Nat) : Nat :=
  let h1 := h0 ^^^ (h0 >>> 16)
  let h2 := (h1 * 0x85ebca6b) % 4294967296
  let h3 := h2 ^^^ (h2 >>> 13)
  let h4 := (h3 * 0xc2b2ae35) % 4294967296
  h4 ^^^ (h4 >>> 16)

/-- Modelled from the spec: the MurmurHash3 x86 32-bit block mix applied to one
little-endian 32-bit block value. -/
def m3Mix (k0 : Nat) : Nat :=
  let k1 := (k0 * 0xcc9e2d51) % 4294967296
  let k2 := rotl32 k1 15
  (k2 * 0x1b873593) % 4294967296

/-- Modelled from the spec: one MurmurHash3 body round, mixing a block into the
running 32-bit state. -/
def m3Step (h k : Nat) : Nat :=
  let h1 := h ^^^ m3Mix k
  let h2 := rotl32 h1 13
  (h2 * 5 + 0xe6546b64) % 4294967296

/-- Modelled from the spec: process the full 4-byte blocks of the input,
returning the state after all full blocks together with the remaining tail
bytes (0 to 3 of them). -/
def m3Blocks (h : Nat) : List Nat → Nat × List Nat
  | b0 :: b1 :: b2 :: b3 :: rest =>
      m3Blocks (m3Step h (b0 + b1 * 256 + b2 * 65536 + b3 * 16777216)) rest
  | tail => (h, tail)

/-- Modelled from the spec: little-endian value of the 0 to 3 tail bytes. -/
def m3TailVal (t : List Nat) : Nat := t.foldr (fun b acc => b + acc * 256) 0

/-- Modelled from the spec: MurmurHash3 x86 32-bit of a byte string with a
seed. This is the digest function the spec calls the documented
MurmurHash-family digest; the model is validated below against every
reference vector the spec and the crate tests give. -/
def murmur3_32 (bytes : List Nat) (seed : Nat) : Nat :=
  let p := m3Blocks seed bytes
  let h := match p.2 with
    | [] => p.1
    | t => p.1 ^^^ m3Mix (m3TailVal t)
  fmix32 (h ^^^ bytes.length)

/-- Modelled from the spec: the murmur3 crate MurmurHasher accumulates every
byte written to it and finish hashes the accumulated buffer with seed 0.
Hashing a Rust str value writes its bytes followed by a single 0xff byte, so
one hash round appends the value bytes and 255 to the running buffer. The
sequence of finish outputs of the chained ReHasher loop
(src/rehasher.rs lines 34-44) is therefore the following list: round i hashes
the value into the same running digest state and reads the running output. -/
def rehashFinishes (bytes : List Nat) (buf : List Nat) : Nat → List Nat
  | 0 => []
  | k + 1 =>
      let buf2 := buf ++ bytes ++ [255]
      murmur3_32 buf2 0 :: rehashFinishes bytes buf2 k

/-- ReHasher hash_to_indices (src/rehasher.rs lines 34-44) for the murmur
digest: re-hash the same value into the same running digest state k times,
reading the running output after each round and reducing it modulo the
modulus. -/
def ReHasher.hash_to_indices (k : Nat) (bytes : List Nat) (modulus : Nat) :
    List Nat :=
  (rehashFinishes bytes [] k).map (fun h => h % modulus)

/-- One hash_to_indices (src/hash_numbers.rs lines 71-77) for the murmur
digest: hash the value once from the default state and reduce modulo the
modulus. -/
def One.hash_to_indices (bytes : List Nat) (modulus : Nat) : List Nat :=
  [murmur3_32 (bytes ++ [255]) 0 % modulus]

/- ===================== Sequential filter ===================== -/

/-- Sequential BloomFilter (src/bloom_filter.rs lines 15-22). The Rust field
k holds the strategy object, which provides both the index function of the
HashToIndices trait and the arity accessor of the K trait; the model splits it
into the function field hash_to_indices and the arity field k. -/
structure BloomFilter (α : Type) where
  bit_vec : List Bool
  hash_to_indices : α → Nat → List Nat
  k : Nat

/-- BloomFilter num_bits (src/bloom_filter.rs lines 127-129). -/
def BloomFilter.num_bits {α : Type} (bf : BloomFilter α) : Nat :=
  bf.bit_vec.length

/-- BloomFilter new (src/bloom_filter.rs lines 118-124): allocate m bits all
false; no validation of m is performed. -/
def BloomFilter.new {α : Type} (m : Nat) (hti : α → Nat → List Nat) (k : Nat) :
    BloomFilter α :=
  { bit_vec := List.replicate m false, hash_to_indices := hti, k := k }

/-- BloomFilter insert (src/bloom_filter.rs lines 151-156): hash the value to
indices with modulus num_bits and set each index. -/
def BloomFilter.insert {α : Type} (bf : BloomFilter α) (value : α) :
    BloomFilter α :=
  { bf with bit_vec := insertBits bf.bit_vec (bf.hash_to_indices value bf.num_bits) }

/-- BloomFilter contains (src/bloom_filter.rs lines 180-185): true iff every
hashed index is set. -/
def BloomFilter.contains {α : Type} (bf : BloomFilter α) (value : α) : Bool :=
  testBits bf.bit_vec (bf.hash_to_indices value bf.num_bits)

/-- Fold of BloomFilter.insert over a list of values. -/
def BloomFilter.insertAll {α : Type} (bf : BloomFilter α) (vs : List α) :
    BloomFilter α :=
  vs.foldl BloomFilter.insert bf

/- ===================== Write-locked filter ===================== -/

/-- WLockBloomFilter (src/w_lock_bloom_filter.rs lines 37-42): same data as
the sequential filter plus the is_writing spinlock flag. -/
structure WLockBloomFilter (α : Type) where
  bit_vec : List Bool
  is_writing : Bool
  hash_to_indices : α → Nat → List Nat
  k : Nat

/-- WLockBloomFilter num_bits (src/w_lock_bloom_filter.rs lines 164-166). -/
def WLockBloomFilter.num_bits {α : Type} (wbf : WLockBloomFilter α) : Nat :=
  wbf.bit_vec.length

/-- WLockBloomFilter new (src/w_lock_bloom_filter.rs lines 154-161): allocate
m bits all false with the lock free. -/
def WLockBloomFilter.new {α : Type} (m : Nat) (hti : α → Nat → List Nat)
    (k : Nat) : WLockBloomFilter α :=
  { bit_vec := List.replicate m false, is_writing := false,
    hash_to_indices := hti, k := k }

/-- WLockBloomFilter insert (src/w_lock_bloom_filter.rs lines 187-201) under
single-threaded execution: hash the value, spin on the compare-and-swap until
is_writing is false, set the bits, release the lock. With no other thread to
release the lock, a call that finds is_writing already true spins forever,
which the model returns as none; otherwise the compare-and-swap succeeds at
once, the bits are set, and the lock is released (is_writing ends false). -/
def WLockBloomFilter.insert {α : Type} (wbf : WLockBloomFilter α) (value : α) :
    Option (WLockBloomFilter α) :=
  if wbf.is_writing then none
  else some { wbf with
    bit_vec := insertBits wbf.bit_vec (wbf.hash_to_indices value wbf.num_bits),
    is_writing := false }

/-- WLockBloomFilter contains (src/w_lock_bloom_filter.rs lines 227-232):
takes no lock, reads the bit vector directly. -/
def WLockBloomFilter.contains {α : Type} (wbf : WLockBloomFilter α)
    (value : α) : Bool :=
  testBits wbf.bit_vec (wbf.hash_to_indices value wbf.num_bits)

/-- Sequential fold of WLockBloomFilter.insert over a list of values. -/
def WLockBloomFilter.insertSeq {α : Type} (wbf : WLockBloomFilter α)
    (vs : List α) : Option (WLockBloomFilter α) :=
  List.foldlM WLockBloomFilter.insert wbf vs

/-- Bit vector reached when a serialisation s of concurrent insert calls runs
against a WLockBloomFilter: the spinlock makes each insert set its whole index
list atomically with respect to other inserts, the hashing phase is pure, and
num_bits never changes, so a concurrent execution is exactly a fold of
insertBits in the order the lock was acquired. -/
def WLockBloomFilter.scheduleRun {α : Type} (wbf : WLockBloomFilter α)
    (s : List α) : List Bool :=
  foldInserts wbf.hash_to_indices wbf.num_bits wbf.bit_vec s

/-- Serialisation order of a concurrent run: qs lists the per-thread queues of
values still to insert, and a list s of values is a schedule of qs when it can
be produced by repeatedly letting some thread acquire the lock and insert the
head of its queue, until every queue is empty. -/
inductive Schedule {α : Type} : List (List α) → List α → Prop
  | done {qs : List (List α)} (h : ∀ q ∈ qs, q = []) : Schedule qs []
  | step {qs : List (List α)} (i : Nat) (v : α) {tl : List α} {rest : List α}
      (hq : qs[i]? = some (v :: tl))
      (hrest : Schedule (qs.set i tl) rest) : Schedule qs (v :: rest)

/- ===================== Counting wrappers ===================== -/

/-- CountingBloomFilter (src/counting_bloom_filter.rs lines 10-15). -/
structure CountingBloomFilter (α : Type) where
  bloom_filter : BloomFilter α
  count : Nat

/-- CountingBloomFilter new (src/counting_bloom_filter.rs lines 96-101):
counter starts at 0. -/
def CountingBloomFilter.new {α : Type} (m : Nat) (hti : α → Nat → List Nat)
    (k : Nat) : CountingBloomFilter α :=
  { bloom_filter := BloomFilter.new m hti k, count := 0 }

/-- CountingBloomFilter num_bits (src/counting_bloom_filter.rs lines 104-106). -/
def CountingBloomFilter.num_bits {α : Type} (cbf : CountingBloomFilter α) :
    Nat :=
  cbf.bloom_filter.num_bits

/-- CountingBloomFilter insert (src/counting_bloom_filter.rs lines 128-131):
increment the counter by one and delegate to the inner insert. -/
def CountingBloomFilter.insert {α : Type} (cbf : CountingBloomFilter α)
    (value : α) : CountingBloomFilter α :=
  { bloom_filter := cbf.bloom_filter.insert value, count := cbf.count + 1 }

/-- CountingBloomFilter contains (src/counting_bloom_filter.rs lines
155-157): pure delegation. -/
def CountingBloomFilter.contains {α : Type} (cbf : CountingBloomFilter α)
    (value : α) : Bool :=
  cbf.bloom_filter.contains value

/-- Fold of CountingBloomFilter.insert over a list of values. -/
def CountingBloomFilter.insertAll {α : Type} (cbf : CountingBloomFilter α)
    (vs : List α) : CountingBloomFilter α :=
  vs.foldl CountingBloomFilter.insert cbf

/-- CountingWLockBloomFilter (src/counting_w_lock_bloom_filter.rs lines
12-15); the count field is the atomic counter. -/
structure CountingWLockBloomFilter (α : Type) where
  bloom_filter : WLockBloomFilter α
  count : Nat

/-- CountingWLockBloomFilter new (src/counting_w_lock_bloom_filter.rs lines
96-101). -/
def CountingWLockBloomFilter.new {α : Type} (m : Nat)
    (hti : α → Nat → List Nat) (k : Nat) : CountingWLockBloomFilter α :=
  { bloom_filter := WLockBloomFilter.new m hti k, count := 0 }

/-- CountingWLockBloomFilter num_bits (src/counting_w_lock_bloom_filter.rs
lines 104-106). -/
def CountingWLockBloomFilter.num_bits {α : Type}
    (cwbf : CountingWLockBloomFilter α) : Nat :=
  cwbf.bloom_filter.num_bits

/-- CountingWLockBloomFilter insert (src/counting_w_lock_bloom_filter.rs
lines 127-130): delegate to the inner insert, then add one to the counter. -/
def CountingWLockBloomFilter.insert {α : Type}
    (cwbf : CountingWLockBloomFilter α) (value : α) :
    Option (CountingWLockBloomFilter α) :=
  (cwbf.bloom_filter.insert value).map
    (fun w => { bloom_filter := w, count := cwbf.count + 1 })

/-- CountingWLockBloomFilter contains (src/counting_w_lock_bloom_filter.rs
lines 154-156): pure delegation. -/
def CountingWLockBloomFilter.contains {α : Type}
    (cwbf : CountingWLockBloomFilter α) (value : α) : Bool :=
  cwbf.bloom_filter.contains value

/-- Sequential fold of CountingWLockBloomFilter.insert. -/
def CountingWLockBloomFilter.insertSeq {α : Type}
    (cwbf : CountingWLockBloomFilter α) (vs : List α) :
    Option (CountingWLockBloomFilter α) :=
  List.foldlM CountingWLockBloomFilter.insert cwbf vs

/- ===================== Panic-aware modular filter ===================== -/

/-- Every hash strategy in the crate reduces each 64-bit digest output modulo
the modulus; the Rust remainder operator panics when the modulus is 0. This
definition models that fallibility: raws is the list of digest outputs a
strategy produces for a value, and the result is none exactly when at least
one reduction modulo 0 is attempted (src/rehasher.rs line 40,
src/hash_numbers.rs line 75). -/
def checkedModIndices (raws : List Nat) (modulus : Nat) : Option (List Nat) :=
  raws.mapM (fun h => if modulus = 0 then none else some (h % modulus))

/-- BloomFilter specialised to a modulus-reducing strategy, with the panic of
the Rust remainder on a zero modulus made explicit. The raw_hashes field maps
a value to the digest outputs the strategy would feed into the modulus
reduction. -/
structure ModBloomFilter (α : Type) where
  bit_vec : List Bool
  raw_hashes : α → List Nat

/-- Constructor of the panic-aware filter, mirroring BloomFilter.new:
any m is accepted, no validation (src/bloom_filter.rs lines 118-124). -/
def ModBloomFilter.new {α : Type} (m : Nat) (raws : α → List Nat) :
    ModBloomFilter α :=
  { bit_vec := List.replicate m false, raw_hashes := raws }

/-- num_bits of the panic-aware filter. -/
def ModBloomFilter.num_bits {α : Type} (bf : ModBloomFilter α) : Nat :=
  bf.bit_vec.length

/-- Panic-aware insert: none models the divide-by-zero panic raised inside
hash_to_indices when num_bits is 0 (src/bloom_filter.rs lines 151-156 calling
src/rehasher.rs lines 34-44). -/
def ModBloomFilter.insert {α : Type} (bf : ModBloomFilter α) (value : α) :
    Option (ModBloomFilter α) :=
  (checkedModIndices (bf.raw_hashes value) bf.num_bits).map
    (fun idxs => { bf with bit_vec := insertBits bf.bit_vec idxs })

/-- Panic-aware contains: none models the same divide-by-zero panic
(src/bloom_filter.rs lines 180-185). -/
def ModBloomFilter.contains {α : Type} (bf : ModBloomFilter α) (value : α) :
    Option Bool :=
  (checkedModIndices (bf.raw_hashes value) bf.num_bits).map
    (fun idxs => testBits bf.bit_vec idxs)

/- ===================== Operation sequences ===================== -/

/-- One public filter operation, for comparing the sequential and the
write-locked filters over arbitrary single-threaded call sequences. -/
inductive FilterOp (α : Type)
  | ins (v : α)
  | query (v : α)

/-- Run a list of operations against the sequential filter, returning the
final filter and the list of contains results in call order. -/
def BloomFilter.runOps {α : Type} (bf : BloomFilter α) :
    List (FilterOp α) → BloomFilter α × List Bool
  | [] => (bf, [])
  | FilterOp.ins v :: rest => (bf.insert v).runOps rest
  | FilterOp.query v :: rest =>
      let p := bf.runOps rest
      (p.1, bf.contains v :: p.2)

/-- Run a list of operations against the write-locked filter single-threaded,
returning none if some insert would spin forever. -/
def WLockBloomFilter.runOps {α : Type} (wbf : WLockBloomFilter α) :
    List (FilterOp α) → Option (WLockBloomFilter α × List Bool)
  | [] => some (wbf, [])
  | FilterOp.ins v :: rest => (wbf.insert v).bind (fun w => w.runOps rest)
  | FilterOp.query v :: rest =>
      (wbf.runOps rest).map (fun p => (p.1, wbf.contains v :: p.2))

/- ===================== Parameter calculator ===================== -/

/-- false_positive_rate (src/lib.rs lines 35-38), with f64 idealised as the
real numbers: the ideal rate (1 - e^(-k n / m))^k. -/
noncomputable def false_positive_rate (k n m : Nat) : ℝ :=
  (1 - Real.exp (-((k : ℝ) * (n : ℝ)) / (m : ℝ))) ^ k

/-- m_from_knp (src/lib.rs lines 45-47): -((k n) / ln(1 - p^(1/k))) cast to
usize. The Rust cast truncates toward zero and saturates below at 0, which on
the reals is exactly the natural floor. -/
noncomputable def m_from_knp (k n : Nat) (p : ℝ) : Nat :=
  ⌊-(((k * n : Nat) : ℝ) / Real.log (1 - p ^ ((1 : ℝ) / (k : ℝ))))⌋₊

/-- optimal_m (src/lib.rs lines 50-53): ceil((n ln p) / ln(1 / 2^(ln 2)))
cast to usize; ceil followed by the saturating cast is the natural ceiling. -/
noncomputable def optimal_m (n : Nat) (p : ℝ) : Nat :=
  ⌈((n : ℝ) * Real.log p) / Real.log (1 / (2 : ℝ) ^ Real.log 2)⌉₊

/-- optimal_k (src/lib.rs lines 56-58): ceil((m / n) ln 2) with the integer
division m / n truncating before the multiplication. -/
noncomputable def optimal_k (n m : Nat) : Nat :=
  ⌈((m / n : Nat) : ℝ) * Real.log 2⌉₊

/-- BloomFilter optimal_new (src/bloom_filter.rs lines 50-58), instantiated
as in the crate tests at the murmur ReHasher over byte-string values: derive
m from (n, p), derive k from (n, m), build a ReHasher with that k. No
validation of n or p is performed. -/
noncomputable def BloomFilter.optimal_new (n : Nat) (p : ℝ) :
    BloomFilter (List Nat) :=
  let m := optimal_m n p
  let k := optimal_k n m
  BloomFilter.new m (ReHasher.hash_to_indices k) k

/-- BloomFilter with_rate (src/bloom_filter.rs lines 89-96): the caller
supplies the strategy (here as its index function hti and arity k) and m is
derived as m_from_knp(k, n, p). -/
noncomputable def BloomFilter.with_rate {α : Type} (n : Nat) (p : ℝ)
    (hti : α → Nat → List Nat) (k : Nat) : BloomFilter α :=
  BloomFilter.new (m_from_knp k n p) hti k

/-- CountingBloomFilter false_positive_chance (src/counting_bloom_filter.rs
lines 175-182): false_positive_rate of the arity, the counter and num_bits. -/
noncomputable def CountingBloomFilter.false_positive_chance {α : Type}
    (cbf : CountingBloomFilter α) : ℝ :=
  false_positive_rate cbf.bloom_filter.k cbf.count cbf.bloom_filter.num_bits

/- ===================== Bit vector lemmas ===================== -/

theorem insertBits_nil (bits : List Bool) : insertBits bits [] = bits := rfl

theorem insertBits_cons (bits : List Bool) (i : Nat) (idxs : List Nat) :
    insertBits bits (i :: idxs) = insertBits (bits.set i true) idxs := rfl

theorem length_insertBits (bits : List Bool) (idxs : List Nat) :
    (insertBits bits idxs).length = bits.length := by
  induction idxs generalizing bits with
  | nil => rfl
  | cons i rest ih => rw [insertBits_cons, ih, List.length_set]

theorem getElem?_insertBits (bits : List Bool) (idxs : List Nat) (j : Nat) :
    (insertBits bits idxs)[j]? =
      bits[j]?.map (fun b => b || decide (j ∈ idxs)) := by
  induction idxs generalizing bits with
  | nil =>
    rw [insertBits_nil]
    cases bits[j]? with
    | none => rfl
    | some b => simp
  | cons i rest ih =>
    rw [insertBits_cons, ih, List.getElem?_set]
    by_cases hij : i = j
    · subst hij
      by_cases hlen : i < bits.length
      · have : ∃ b, bits[i]? = some b :=
          ⟨bits[i], (List.getElem?_eq_some_getElem_iff bits i hlen).mpr trivial⟩
        obtain ⟨b, hb⟩ := this
        simp [hb, hlen]
      · have : bits[i]? = none := by
          rw [List.getElem?_eq_none_iff]; omega
        simp [this, hlen]
    · have : decide (j ∈ i :: rest) = decide (j ∈ rest) := by
        simp [List.mem_cons]
        intro h; exact absurd h.symm hij
      simp only [hij, if_false, this]

theorem bitGet_insertBits (bits : List Bool) (idxs : List Nat) (j : Nat) :
    bitGet (insertBits bits idxs) j =
      (bitGet bits j || (decide (j ∈ idxs) && decide (j < bits.length))) := by
  unfold bitGet
  rw [List.getD_eq_getElem?_getD, List.getD_eq_getElem?_getD,
    getElem?_insertBits]
  by_cases h : j < bits.length
  · have : ∃ b, bits[j]? = some b :=
      ⟨bits[j], (List.getElem?_eq_some_getElem_iff bits j h).mpr trivial⟩
    obtain ⟨b, hb⟩ := this
    simp [hb, h]
  · have hn : bits[j]? = none := by
      rw [List.getElem?_eq_none_iff]; omega
    simp [hn, h]

theorem bitGet_insertBits_mono (bits : List Bool) (idxs : List Nat) (j : Nat)
    (h : bitGet bits j = true) : bitGet (insertBits bits idxs) j = true := by
  rw [bitGet_insertBits, h, Bool.true_or]

theorem bitGet_insertBits_self (bits : List Bool) (idxs : List Nat) (j : Nat)
    (hmem : j ∈ idxs) (hlen : j < bits.length) :
    bitGet (insertBits bits idxs) j = true := by
  rw [bitGet_insertBits]
  simp [hmem, hlen]

theorem insertBits_idem (bits : List Bool) (idxs : List Nat) :
    insertBits (insertBits bits idxs) idxs = insertBits bits idxs := by
  apply List.ext_getElem?
  intro j
  rw [getElem?_insertBits, getElem?_insertBits, Option.map_map]
  cases bits[j]? with
  | none => rfl
  | some b =>
    have h2 : ∀ x y : Bool, ((x || y) || y) = (x || y) := by decide
    exact congrArg some (h2 b _)

theorem insertBits_comm (bits : List Bool) (l1 l2 : List Nat) :
    insertBits (insertBits bits l1) l2 = insertBits (insertBits bits l2) l1 := by
  apply List.ext_getElem?
  intro j
  rw [getElem?_insertBits, getElem?_insertBits, getElem?_insertBits,
    getElem?_insertBits, Option.map_map, Option.map_map]
  cases bits[j]? with
  | none => rfl
  | some b =>
    have h2 : ∀ x y z : Bool, ((x || y) || z) = ((x || z) || y) := by decide
    exact congrArg some (h2 b _ _)

theorem testBits_eq_true_iff (bits : List Bool) (idxs : List Nat) :
    testBits bits idxs = true ↔ ∀ i ∈ idxs, bitGet bits i = true := by
  unfold testBits
  rw [List.all_eq_true]

theorem length_foldInserts {α : Type} (hti : α → Nat → List Nat) (m : Nat)
    (bits : List Bool) (vs : List α) :
    (foldInserts hti m bits vs).length = bits.length := by
  induction vs generalizing bits with
  | nil => rfl
  | cons v rest ih =>
    unfold foldInserts at *
    rw [List.foldl_cons, ih, length_insertBits]

theorem foldInserts_cons {α : Type} (hti : α → Nat → List Nat) (m : Nat)
    (bits : List Bool) (v : α) (vs : List α) :
    foldInserts hti m bits (v :: vs) =
      foldInserts hti m (insertBits bits (hti v m)) vs := rfl

theorem bitGet_foldInserts_mono {α : Type} (hti : α → Nat → List Nat)
    (m : Nat) (bits : List Bool) (vs : List α) (j : Nat)
    (h : bitGet bits j = true) :
    bitGet (foldInserts hti m bits vs) j = true := by
  induction vs generalizing bits with
  | nil => exact h
  | cons v rest ih =>
    rw [foldInserts_cons]
    exact ih _ (bitGet_insertBits_mono _ _ _ h)

theorem testBits_foldInserts_of_set {α : Type} (hti : α → Nat → List Nat)
    (m : Nat) (bits : List Bool) (vs : List α) (idxs : List Nat)
    (h : ∀ i ∈ idxs, bitGet bits i = true) :
    testBits (foldInserts hti m bits vs) idxs = true := by
  rw [testBits_eq_true_iff]
  intro i hi
  exact bitGet_foldInserts_mono _ _ _ _ _ (h i hi)

/- ===================== Filter algebra lemmas ===================== -/

theorem BloomFilter.insert_num_bits {α : Type} (bf : BloomFilter α) (v : α) :
    (bf.insert v).num_bits = bf.num_bits := by
  unfold BloomFilter.insert BloomFilter.num_bits
  exact length_insertBits _ _

theorem BloomFilter.insertAll_eq_fold {α : Type} (bf : BloomFilter α)
    (vs : List α) :
    bf.insertAll vs =
      { bf with bit_vec := foldInserts bf.hash_to_indices bf.num_bits bf.bit_vec vs } := by
  induction vs generalizing bf with
  | nil => rfl
  | cons v rest ih =>
    show (bf.insert v).insertAll rest = _
    rw [ih (bf.insert v), BloomFilter.insert_num_bits]
    rfl

theorem WLockBloomFilter.insert_of_free {α : Type} (wbf : WLockBloomFilter α)
    (v : α) (h : wbf.is_writing = false) :
    wbf.insert v = some { wbf with
      bit_vec := insertBits wbf.bit_vec (wbf.hash_to_indices v wbf.num_bits),
      is_writing := false } := by
  unfold WLockBloomFilter.insert
  rw [h]
  rfl

theorem WLockBloomFilter.insertSeq_eq_fold {α : Type} (wbf : WLockBloomFilter α)
    (vs : List α) (h : wbf.is_writing = false) :
    wbf.insertSeq vs = some { wbf with
      bit_vec := foldInserts wbf.hash_to_indices wbf.num_bits wbf.bit_vec vs,
      is_writing := false } := by
  induction vs generalizing wbf with
  | nil =>
    cases wbf with
    | mk bits w hti k =>
      cases h
      rfl
  | cons v rest ih =>
    show List.foldlM WLockBloomFilter.insert wbf (v :: rest) = _
    rw [List.foldlM_cons, WLockBloomFilter.insert_of_free wbf v h]
    have hb : ∀ (x : WLockBloomFilter α)
        (f : WLockBloomFilter α → Option (WLockBloomFilter α)),
        (some x >>= f) = f x := fun _ _ => rfl
    rw [hb]
    have := ih { wbf with
      bit_vec := insertBits wbf.bit_vec (wbf.hash_to_indices v wbf.num_bits),
      is_writing := false } rfl
    rw [show (List.foldlM WLockBloomFilter.insert _ rest) = _ from this]
    unfold WLockBloomFilter.num_bits
    rw [length_insertBits]
    rfl

theorem CountingBloomFilter.insertAll_eq_fold_counted {α : Type}
    (cbf : CountingBloomFilter α) (vs : List α) :
    cbf.insertAll vs =
      { bloom_filter := cbf.bloom_filter.insertAll vs,
        count := cbf.count + vs.length } := by
  induction vs generalizing cbf with
  | nil => rfl
  | cons v rest ih =>
    show (cbf.insert v).insertAll rest = _
    rw [ih (cbf.insert v)]
    unfold CountingBloomFilter.insert
    simp only [List.length_cons]
    congr 1
    omega

theorem CountingWLockBloomFilter.insertSeq_eq_fold_counted {α : Type}
    (cwbf : CountingWLockBloomFilter α) (vs : List α)
    (h : cwbf.bloom_filter.is_writing = false) :
    cwbf.insertSeq vs = some
      { bloom_filter := { cwbf.bloom_filter with
          bit_vec := foldInserts cwbf.bloom_filter.hash_to_indices
            cwbf.bloom_filter.num_bits cwbf.bloom_filter.bit_vec vs,
          is_writing := false },
        count := cwbf.count + vs.length } := by
  induction vs generalizing cwbf with
  | nil =>
    cases cwbf with
    | mk inner c =>
      cases inner with
      | mk bits w hti k =>
        cases h
        rfl
  | cons v rest ih =>
    show List.foldlM CountingWLockBloomFilter.insert cwbf (v :: rest) = _
    rw [List.foldlM_cons]
    unfold CountingWLockBloomFilter.insert
    rw [WLockBloomFilter.insert_of_free _ v h]
    have hb : ∀ (x : CountingWLockBloomFilter α)
        (f : CountingWLockBloomFilter α → Option (CountingWLockBloomFilter α)),
        ((some x).map id >>= f) = f x := fun _ _ => rfl
    show (CountingWLockBloomFilter.insertSeq _ rest) = _
    rw [ih { bloom_filter := _, count := cwbf.count + 1 } rfl]
    unfold WLockBloomFilter.num_bits
    simp only [length_insertBits, List.length_cons]
    rw [show cwbf.count + 1 + rest.length = cwbf.count + (rest.length + 1) by omega]
    rfl

/- ===================== Schedule lemmas ===================== -/

theorem flatten_perm_of_set {α : Type} (qs : List (List α)) (i : Nat) (v : α)
    (tl : List α) (h : qs[i]? = some (v :: tl)) :
    qs.flatten.Perm (v :: (qs.set i tl).flatten) := by
  induction qs generalizing i with
  | nil => simp at h
  | cons q rest ih =>
    cases i with
    | zero =>
      simp only [List.getElem?_cons_zero, Option.some.injEq] at h
      subst h
      simp only [List.flatten_cons, List.set_cons_zero, List.cons_append]
      exact List.Perm.refl _
    | succ i =>
      simp only [List.getElem?_cons_succ] at h
      have hp := ih i h
      simp only [List.flatten_cons, List.set_cons_succ]
      exact (hp.append_left q).trans List.perm_middle

theorem Schedule.perm_flatten {α : Type} {qs : List (List α)} {s : List α}
    (h : Schedule qs s) : s.Perm qs.flatten := by
  induction h with
  | done hq =>
    rw [List.flatten_eq_nil_iff.mpr hq]
  | step i v hq _ ih =>
    exact (ih.cons v).trans (flatten_perm_of_set _ i v _ hq).symm

theorem foldInserts_perm {α : Type} (hti : α → Nat → List Nat) (m : Nat)
    {vs ws : List α} (p : vs.Perm ws) :
    ∀ bits, foldInserts hti m bits vs = foldInserts hti m bits ws := by
  induction p with
  | nil => intro _; rfl
  | cons x _ ih =>
    intro bits
    rw [foldInserts_cons, foldInserts_cons, ih]
  | swap x y l =>
    intro bits
    rw [foldInserts_cons, foldInserts_cons, foldInserts_cons, foldInserts_cons,
      insertBits_comm]
  | trans _ _ ih1 ih2 =>
    intro bits
    rw [ih1, ih2]

/- ===================== Constructor and preservation lemmas ===================== -/

theorem BloomFilter.num_bits_new {α : Type} (m : Nat)
    (hti : α → Nat → List Nat) (k : Nat) :
    (BloomFilter.new m hti k).num_bits = m := by
  unfold BloomFilter.new BloomFilter.num_bits
  exact List.length_replicate _ _

theorem WLockBloomFilter.num_bits_of_new {α : Type} (m : Nat)
    (hti : α → Nat → List Nat) (k : Nat) :
    (WLockBloomFilter.new m hti k).num_bits = m := by
  unfold WLockBloomFilter.new WLockBloomFilter.num_bits
  exact List.length_replicate _ _

theorem BloomFilter.insertAll_num_bits {α : Type} (bf : BloomFilter α)
    (vs : List α) : (bf.insertAll vs).num_bits = bf.num_bits := by
  rw [BloomFilter.insertAll_eq_fold]
  unfold BloomFilter.num_bits
  exact length_foldInserts _ _ _ _

theorem BloomFilter.insertAll_k {α : Type} (bf : BloomFilter α)
    (vs : List α) : (bf.insertAll vs).k = bf.k := by
  rw [BloomFilter.insertAll_eq_fold]

theorem BloomFilter.contains_insertAll {α : Type} (bf : BloomFilter α)
    (ws : List α) (v : α) :
    (bf.insertAll ws).contains v =
      testBits (foldInserts bf.hash_to_indices bf.num_bits bf.bit_vec ws)
        (bf.hash_to_indices v bf.num_bits) := by
  rw [BloomFilter.insertAll_eq_fold]
  unfold BloomFilter.contains BloomFilter.num_bits
  rw [length_foldInserts]

/- ===================== No-false-negative core lemmas ===================== -/

theorem BloomFilter.contains_after_insert_sequence {α : Type} (bf : BloomFilter α) (v : α)
    (ws : List α)
    (h : ∀ i ∈ bf.hash_to_indices v bf.num_bits, i < bf.num_bits) :
    ((bf.insert v).insertAll ws).contains v = true := by
  rw [BloomFilter.contains_insertAll]
  have hh : (bf.insert v).hash_to_indices = bf.hash_to_indices := rfl
  rw [hh, BloomFilter.insert_num_bits]
  apply testBits_foldInserts_of_set
  intro i hi
  have hv : (bf.insert v).bit_vec =
      insertBits bf.bit_vec (bf.hash_to_indices v bf.num_bits) := rfl
  rw [hv]
  exact bitGet_insertBits_self _ _ _ hi (h i hi)

theorem CountingBloomFilter.counting_contains_after_insert_sequence {α : Type}
    (cbf : CountingBloomFilter α) (v : α) (ws : List α)
    (h : ∀ i ∈ cbf.bloom_filter.hash_to_indices v cbf.num_bits,
      i < cbf.num_bits) :
    ((cbf.insert v).insertAll ws).contains v = true := by
  rw [CountingBloomFilter.insertAll_eq_fold_counted]
  show ((cbf.bloom_filter.insert v).insertAll ws).contains v = true
  exact BloomFilter.contains_after_insert_sequence cbf.bloom_filter v ws h

theorem WLockBloomFilter.contains_after {α : Type} (wbf : WLockBloomFilter α)
    (v : α) (ws : List α)
    (h : ∀ i ∈ wbf.hash_to_indices v wbf.num_bits, i < wbf.num_bits) :
    WLockBloomFilter.contains
      { wbf with
        bit_vec := foldInserts wbf.hash_to_indices wbf.num_bits
          (insertBits wbf.bit_vec (wbf.hash_to_indices v wbf.num_bits)) ws,
        is_writing := false } v = true := by
  unfold WLockBloomFilter.contains
  show testBits _ (wbf.hash_to_indices v (WLockBloomFilter.num_bits _)) = true
  have hlen : WLockBloomFilter.num_bits
      { wbf with
        bit_vec := foldInserts wbf.hash_to_indices wbf.num_bits
          (insertBits wbf.bit_vec (wbf.hash_to_indices v wbf.num_bits)) ws,
        is_writing := false } = wbf.num_bits := by
    unfold WLockBloomFilter.num_bits
    rw [length_foldInserts, length_insertBits]
  rw [hlen]
  apply testBits_foldInserts_of_set
  intro i hi
  exact bitGet_insertBits_self _ _ _ hi (h i hi)

theorem WLockBloomFilter.wlock_contains_after_insert_sequence {α : Type}
    (wbf : WLockBloomFilter α) (v : α) (ws : List α)
    (h : ∀ i ∈ wbf.hash_to_indices v wbf.num_bits, i < wbf.num_bits)
    (hw : wbf.is_writing = false) :
    ((wbf.insert v).bind (fun x => x.insertSeq ws)).map
      (fun x => x.contains v) = some true := by
  rw [WLockBloomFilter.insert_of_free _ _ hw]
  show ((WLockBloomFilter.insertSeq _ ws).map _) = some true
  rw [WLockBloomFilter.insertSeq_eq_fold _ _ rfl]
  show some (WLockBloomFilter.contains _ v) = some true
  have hm : WLockBloomFilter.num_bits
      { wbf with
        bit_vec := insertBits wbf.bit_vec (wbf.hash_to_indices v wbf.num_bits),
        is_writing := false } = wbf.num_bits := by
    unfold WLockBloomFilter.num_bits
    rw [length_insertBits]
  rw [show (WLockBloomFilter.contains _ v) = true from by
    rw [show ({ wbf with
        bit_vec := insertBits wbf.bit_vec (wbf.hash_to_indices v wbf.num_bits),
        is_writing := false } : WLockBloomFilter α).num_bits = wbf.num_bits
      from hm]
    exact WLockBloomFilter.contains_after wbf v ws h]

theorem CountingWLockBloomFilter.counting_wlock_contains_after_insert_sequence {α : Type}
    (cwbf : CountingWLockBloomFilter α) (v : α) (ws : List α)
    (h : ∀ i ∈ cwbf.bloom_filter.hash_to_indices v cwbf.num_bits,
      i < cwbf.num_bits)
    (hw : cwbf.bloom_filter.is_writing = false) :
    ((cwbf.insert v).bind (fun x => x.insertSeq ws)).map
      (fun x => x.contains v) = some true := by
  unfold CountingWLockBloomFilter.insert
  rw [WLockBloomFilter.insert_of_free _ _ hw]
  show ((CountingWLockBloomFilter.insertSeq _ ws).map _) = some true
  rw [CountingWLockBloomFilter.insertSeq_eq_fold_counted _ _ rfl]
  show some (WLockBloomFilter.contains _ v) = some true
  have hm : WLockBloomFilter.num_bits
      { cwbf.bloom_filter with
        bit_vec := insertBits cwbf.bloom_filter.bit_vec
          (cwbf.bloom_filter.hash_to_indices v cwbf.bloom_filter.num_bits),
        is_writing := false } = cwbf.bloom_filter.num_bits := by
    unfold WLockBloomFilter.num_bits
    rw [length_insertBits]
  rw [show (WLockBloomFilter.contains _ v) = true from by
    rw [show ({ cwbf.bloom_filter with
        bit_vec := insertBits cwbf.bloom_filter.bit_vec
          (cwbf.bloom_filter.hash_to_indices v cwbf.bloom_filter.num_bits),
        is_writing := false } : WLockBloomFilter α).num_bits =
        cwbf.bloom_filter.num_bits from hm]
    exact WLockBloomFilter.contains_after cwbf.bloom_filter v ws h]

/- ===================== Idempotence lemmas ===================== -/

theorem BloomFilter.insert_insert_same {α : Type} (bf : BloomFilter α) (v : α) :
    (bf.insert v).insert v = bf.insert v := by
  cases bf with
  | mk bits hti k =>
    unfold BloomFilter.insert BloomFilter.num_bits
    simp only [length_insertBits, insertBits_idem]

theorem WLockBloomFilter.insert_bind_insert_same {α : Type} (wbf : WLockBloomFilter α)
    (v : α) (hw : wbf.is_writing = false) :
    ((wbf.insert v).bind (fun x => x.insert v)) = wbf.insert v := by
  rw [WLockBloomFilter.insert_of_free _ _ hw]
  show WLockBloomFilter.insert _ v = _
  rw [WLockBloomFilter.insert_of_free _ _ rfl]
  unfold WLockBloomFilter.num_bits
  simp only [length_insertBits, insertBits_idem]

/- ===================== Numeric helper lemmas ===================== -/

theorem log_128_125_bounds :
    (0.0237165 : ℝ) < Real.log (128/125) ∧ Real.log (128/125) < 0.0237166 := by
  have hx : |(3/128 : ℝ)| < 1 := by
    rw [abs_of_pos (by norm_num)]
    norm_num
  have h := Real.abs_log_sub_add_sum_range_le hx 4
  rw [abs_le] at h
  obtain ⟨h1, h2⟩ := h
  have hlog : Real.log (1 - 3/128) = -Real.log (128/125) := by
    rw [show (1 - 3/128 : ℝ) = (128/125)⁻¹ by norm_num, Real.log_inv]
  have hS : (∑ i ∈ Finset.range 4, (3/128:ℝ) ^ (i + 1) / (i + 1)) =
      (3/128 : ℝ) + 9/32768 + 9/2097152 + 81/1073741824 := by
    rw [Finset.sum_range_succ, Finset.sum_range_succ, Finset.sum_range_succ,
      Finset.sum_range_succ, Finset.sum_range_zero]
    norm_num
  have hE : |(3/128:ℝ)| ^ (4+1) / (1 - |(3/128:ℝ)|) = (243/33554432000 : ℝ) := by
    rw [abs_of_pos (by norm_num)]
    norm_num
  rw [hS, hE, hlog] at h1 h2
  constructor
  · linarith
  · linarith

theorem log_ten_ninths_bounds :
    (1896487/18000000 : ℝ) ≤ Real.log (10/9) ∧
      Real.log (10/9) ≤ (1896491/18000000 : ℝ) := by
  have hx : |(1/10 : ℝ)| < 1 := by
    rw [abs_of_pos (by norm_num)]
    norm_num
  have h := Real.abs_log_sub_add_sum_range_le hx 6
  rw [abs_le] at h
  obtain ⟨h1, h2⟩ := h
  have hlog : Real.log (1 - 1/10) = -Real.log (10/9) := by
    rw [show (1 - 1/10 : ℝ) = (10/9)⁻¹ by norm_num, Real.log_inv]
  have hS : (∑ i ∈ Finset.range 6, (1/10:ℝ) ^ (i + 1) / (i + 1)) =
      (632163/6000000 : ℝ) := by
    rw [Finset.sum_range_succ, Finset.sum_range_succ, Finset.sum_range_succ,
      Finset.sum_range_succ, Finset.sum_range_succ, Finset.sum_range_succ,
      Finset.sum_range_zero]
    norm_num
  have hE : |(1/10:ℝ)| ^ (6+1) / (1 - |(1/10:ℝ)|) = (1/9000000 : ℝ) := by
    rw [abs_of_pos (by norm_num)]
    norm_num
  rw [hS, hE, hlog] at h1 h2
  constructor
  · linarith
  · linarith

theorem log_thousand_eq :
    Real.log 1000 = 10 * Real.log 2 - Real.log (128/125) := by
  have h1 : Real.log ((1024:ℝ)/1000) = Real.log 1024 - Real.log 1000 :=
    Real.log_div (by norm_num) (by norm_num)
  have h2 : ((1024:ℝ)/1000) = (128/125 : ℝ) := by norm_num
  have h3 : Real.log (1024:ℝ) = 10 * Real.log 2 := by
    rw [show (1024:ℝ) = (2:ℝ)^(10:ℕ) by norm_num, Real.log_pow]
    norm_num
  rw [h2, h3] at h1
  linarith

theorem optimal_m_ref : optimal_m 2000 (1/1000) = 28756 := by
  unfold optimal_m
  have hden : Real.log (1 / (2:ℝ) ^ Real.log 2) = -(Real.log 2 * Real.log 2) := by
    rw [one_div, Real.log_inv, Real.log_rpow (by norm_num)]
  have hnum : ((2000:ℕ):ℝ) * Real.log (1/1000) = -(2000 * Real.log 1000) := by
    rw [one_div, Real.log_inv]
    push_cast
    ring
  rw [hden, hnum, neg_div_neg_eq]
  have hl2a := Real.log_two_gt_d9
  have hl2b := Real.log_two_lt_d9
  have h128 := log_128_125_bounds
  have hL := log_thousand_eq
  have hpos : (0:ℝ) < Real.log 2 * Real.log 2 := by nlinarith
  rw [Nat.ceil_eq_iff (by norm_num)]
  constructor
  · show ((28756 - 1 : ℕ) : ℝ) < 2000 * Real.log 1000 / (Real.log 2 * Real.log 2)
    rw [lt_div_iff₀ hpos]
    push_cast
    nlinarith [h128.1, h128.2, hl2a, hl2b]
  · show 2000 * Real.log 1000 / (Real.log 2 * Real.log 2) ≤ ((28756:ℕ):ℝ)
    rw [div_le_iff₀ hpos]
    push_cast
    nlinarith [h128.1, h128.2, hl2a, hl2b]

theorem optimal_k_ref : optimal_k 2000 28756 = 10 := by
  unfold optimal_k
  rw [show (28756 / 2000 : ℕ) = 14 by norm_num]
  have hl2a := Real.log_two_gt_d9
  have hl2b := Real.log_two_lt_d9
  rw [Nat.ceil_eq_iff (by norm_num)]
  constructor
  · push_cast
    nlinarith
  · push_cast
    nlinarith

theorem m_from_knp_roundtrip :
    m_from_knp 4 1000 (false_positive_rate 4 1000 10000) = 10000 := by
  unfold m_from_knp false_positive_rate
  have ha : (0:ℝ) ≤ 1 - Real.exp (-(((4:ℕ):ℝ) * ((1000:ℕ):ℝ)) / ((10000:ℕ):ℝ)) := by
    have h1 : Real.exp (-(((4:ℕ):ℝ) * ((1000:ℕ):ℝ)) / ((10000:ℕ):ℝ)) ≤ 1 := by
      rw [Real.exp_le_one_iff]
      push_cast
      norm_num
    linarith
  have hpow : ((1 - Real.exp (-(((4:ℕ):ℝ) * ((1000:ℕ):ℝ)) / ((10000:ℕ):ℝ))) ^ (4:ℕ)) ^ ((1:ℝ)/((4:ℕ):ℝ)) =
      1 - Real.exp (-(((4:ℕ):ℝ) * ((1000:ℕ):ℝ)) / ((10000:ℕ):ℝ)) := by
    rw [← Real.rpow_natCast (1 - Real.exp _) 4, ← Real.rpow_mul ha]
    norm_num
  rw [hpow, sub_sub_cancel, Real.log_exp]
  rw [show -((((4*1000:ℕ)):ℝ) / (-(((4:ℕ):ℝ) * ((1000:ℕ):ℝ)) / ((10000:ℕ):ℝ))) = (10000:ℝ) by
    push_cast
    norm_num]
  rw [show (10000:ℝ) = ((10000:ℕ):ℝ) by push_cast; ring]
  exact Nat.floor_natCast 10000

theorem m_from_knp_ref : m_from_knp 4 1000 (1/10000) = 37964 := by
  unfold m_from_knp
  have hpow : ((1/10000 : ℝ)) ^ ((1:ℝ)/((4:ℕ):ℝ)) = (1/10 : ℝ) := by
    rw [show (1/10000 : ℝ) = (1/10 : ℝ)^(4:ℕ) by norm_num]
    rw [← Real.rpow_natCast (1/10 : ℝ) 4, ← Real.rpow_mul (by norm_num)]
    norm_num
  rw [hpow]
  rw [show (1 - 1/10 : ℝ) = (10/9 : ℝ)⁻¹ by norm_num, Real.log_inv]
  have hL := log_ten_ninths_bounds
  have hLpos : (0:ℝ) < Real.log (10/9) := by linarith [hL.1]
  rw [show -((((4*1000:ℕ)):ℝ) / -Real.log (10/9)) = (4000:ℝ) / Real.log (10/9) by
    push_cast
    ring]
  have hval : (0:ℝ) ≤ (4000:ℝ) / Real.log (10/9) := by positivity
  rw [Nat.floor_eq_iff hval]
  constructor
  · show ((37964:ℕ):ℝ) ≤ 4000 / Real.log (10/9)
    rw [le_div_iff₀ hLpos]
    push_cast
    nlinarith [hL.1, hL.2]
  · show (4000:ℝ) / Real.log (10/9) < ((37964:ℕ):ℝ) + 1
    rw [div_lt_iff₀ hLpos]
    push_cast
    nlinarith [hL.1, hL.2]

theorem false_positive_rate_mono (k m n n₂ : Nat) (hm : 0 < m) (h : n ≤ n₂) :
    false_positive_rate k n m ≤ false_positive_rate k n₂ m := by
  unfold false_positive_rate
  have hmr : (0:ℝ) < (m:ℝ) := by exact_mod_cast hm
  have hexp1 : Real.exp (-((k:ℝ) * (n:ℝ)) / (m:ℝ)) ≤ 1 := by
    rw [Real.exp_le_one_iff]
    apply div_nonpos_of_nonpos_of_nonneg
    · simp [mul_nonneg]
    · linarith
  have hbase0 : (0:ℝ) ≤ 1 - Real.exp (-((k:ℝ) * (n:ℝ)) / (m:ℝ)) := by linarith
  have hbase : 1 - Real.exp (-((k:ℝ) * (n:ℝ)) / (m:ℝ)) ≤
      1 - Real.exp (-((k:ℝ) * (n₂:ℝ)) / (m:ℝ)) := by
    have hmono : Real.exp (-((k:ℝ) * (n₂:ℝ)) / (m:ℝ)) ≤
        Real.exp (-((k:ℝ) * (n:ℝ)) / (m:ℝ)) := by
      apply Real.exp_le_exp.mpr
      apply div_le_div_of_nonneg_right ?_ hmr.le
      have hn : (n:ℝ) ≤ (n₂:ℝ) := by exact_mod_cast h
      nlinarith [Nat.cast_nonneg (α := ℝ) k]
    linarith
  exact pow_le_pow_left₀ hbase0 hbase k

theorem CountingBloomFilter.fpc_mono {α : Type} (cbf : CountingBloomFilter α)
    (vs : List α) (hm : 0 < cbf.num_bits) :
    cbf.false_positive_chance ≤ (cbf.insertAll vs).false_positive_chance := by
  rw [CountingBloomFilter.insertAll_eq_fold_counted]
  show false_positive_rate cbf.bloom_filter.k cbf.count
      cbf.bloom_filter.num_bits ≤
    false_positive_rate (cbf.bloom_filter.insertAll vs).k
      (cbf.count + vs.length) (cbf.bloom_filter.insertAll vs).num_bits
  rw [BloomFilter.insertAll_k, BloomFilter.insertAll_num_bits]
  exact false_positive_rate_mono _ _ _ _ hm (Nat.le_add_right _ _)

/- ===================== Refinement lemmas ===================== -/

theorem contains_eq_of_fields {α : Type} (bf : BloomFilter α)
    (wbf : WLockBloomFilter α) (v : α)
    (hb : wbf.bit_vec = bf.bit_vec)
    (hh : wbf.hash_to_indices = bf.hash_to_indices) :
    wbf.contains v = bf.contains v := by
  unfold WLockBloomFilter.contains BloomFilter.contains
    WLockBloomFilter.num_bits BloomFilter.num_bits
  rw [hb, hh]

theorem runOps_bisim {α : Type} (ops : List (FilterOp α)) :
    ∀ (bf : BloomFilter α) (wbf : WLockBloomFilter α),
      wbf.bit_vec = bf.bit_vec → wbf.hash_to_indices = bf.hash_to_indices →
      wbf.is_writing = false →
      (wbf.runOps ops).map (fun p => (p.1.bit_vec, p.2)) =
        some ((bf.runOps ops).1.bit_vec, (bf.runOps ops).2) := by
  induction ops with
  | nil =>
    intro bf wbf hb _ _
    show some (wbf.bit_vec, ([] : List Bool)) = some (bf.bit_vec, [])
    rw [hb]
  | cons op rest ih =>
    intro bf wbf hb hh hw
    have hnb : wbf.num_bits = bf.num_bits := by
      unfold WLockBloomFilter.num_bits BloomFilter.num_bits
      rw [hb]
    cases op with
    | ins v =>
      show ((wbf.insert v).bind (fun w => w.runOps rest)).map _ = _
      rw [WLockBloomFilter.insert_of_free _ _ hw]
      show ((WLockBloomFilter.runOps _ rest).map _) = _
      have hbv : ({ wbf with
          bit_vec := insertBits wbf.bit_vec
            (wbf.hash_to_indices v wbf.num_bits),
          is_writing := false } : WLockBloomFilter α).bit_vec =
          (bf.insert v).bit_vec := by
        show insertBits wbf.bit_vec (wbf.hash_to_indices v wbf.num_bits) =
          insertBits bf.bit_vec (bf.hash_to_indices v bf.num_bits)
        rw [hb, hh, hnb]
      exact ih (bf.insert v) _ hbv hh rfl
    | query v =>
      show ((wbf.runOps rest).map
          (fun p => (p.1, wbf.contains v :: p.2))).map
          (fun p => (p.1.bit_vec, p.2)) =
        some ((bf.runOps rest).1.bit_vec,
          bf.contains v :: (bf.runOps rest).2)
      have hrec := ih bf wbf hb hh hw
      cases hro : wbf.runOps rest with
      | none =>
        rw [hro] at hrec
        exact Option.noConfusion hrec
      | some p =>
        rw [hro] at hrec
        simp only [Option.map_some', Option.some.injEq, Prod.mk.injEq] at hrec
        obtain ⟨hp1, hp2⟩ := hrec
        show some (p.1.bit_vec, wbf.contains v :: p.2) = _
        rw [hp1, hp2, contains_eq_of_fields bf wbf v hb hh]

/- ===================== Panic-aware lemmas ===================== -/

theorem length_rehashFinishes (bytes buf : List Nat) (k : Nat) :
    (rehashFinishes bytes buf k).length = k := by
  induction k generalizing buf with
  | zero => rfl
  | succ k ih =>
    show (rehashFinishes bytes buf (k+1)).length = k + 1
    unfold rehashFinishes
    rw [List.length_cons, ih]

theorem checkedModIndices_zero (raws0 : List Nat) (h : 1 ≤ raws0.length) :
    checkedModIndices raws0 0 = none := by
  cases raws0 with
  | nil => simp at h
  | cons a tl =>
    unfold checkedModIndices
    rw [List.mapM_cons]
    simp

theorem ModBloomFilter.insert_zero_none {α : Type} (raws : α → List Nat)
    (v : α) (h : 1 ≤ (raws v).length) :
    (ModBloomFilter.new 0 raws).insert v = none := by
  unfold ModBloomFilter.insert
  have hnb : (ModBloomFilter.new 0 raws).num_bits = 0 := rfl
  have hrh : (ModBloomFilter.new 0 raws).raw_hashes = raws := rfl
  rw [hnb, hrh, checkedModIndices_zero (raws v) h]
  rfl

theorem ModBloomFilter.contains_zero_none {α : Type} (raws : α → List Nat)
    (v : α) (h : 1 ≤ (raws v).length) :
    (ModBloomFilter.new 0 raws).contains v = none := by
  unfold ModBloomFilter.contains
  have hnb : (ModBloomFilter.new 0 raws).num_bits = 0 := rfl
  have hrh : (ModBloomFilter.new 0 raws).raw_hashes = raws := rfl
  rw [hnb, hrh, checkedModIndices_zero (raws v) h]
  rfl

/- ===================== Claim theorems ===================== -/

/-- C1: for every filter (sequential BloomFilter or WLockBloomFilter,
counting or not) and every sequence of insert calls executed without
concurrency, contains(v) returns true immediately after insert(v) and
continues to return true after any further inserts of other values. The
hypotheses state the HashToIndices contract that all produced indices lie in
[0, modulus), which every strategy in the crate satisfies by reducing modulo
the modulus, and that the write-locked filters start with the lock free, as
every constructor ensures. -/
theorem claim_no_false_negatives {α : Type} (bf : BloomFilter α)
    (cbf : CountingBloomFilter α) (wbf : WLockBloomFilter α)
    (cwbf : CountingWLockBloomFilter α) (v : α) (ws : List α)
    (h1 : ∀ i ∈ bf.hash_to_indices v bf.num_bits, i < bf.num_bits)
    (h2 : ∀ i ∈ cbf.bloom_filter.hash_to_indices v cbf.num_bits,
      i < cbf.num_bits)
    (h3 : ∀ i ∈ wbf.hash_to_indices v wbf.num_bits, i < wbf.num_bits)
    (h4 : ∀ i ∈ cwbf.bloom_filter.hash_to_indices v cwbf.num_bits,
      i < cwbf.num_bits)
    (hw : wbf.is_writing = false)
    (hcw : cwbf.bloom_filter.is_writing = false) :
    (bf.insert v).contains v = true ∧
    ((bf.insert v).insertAll ws).contains v = true ∧
    ((cbf.insert v).insertAll ws).contains v = true ∧
    ((wbf.insert v).bind (fun x => x.insertSeq ws)).map
      (fun x => x.contains v) = some true ∧
    ((cwbf.insert v).bind (fun x => x.insertSeq ws)).map
      (fun x => x.contains v) = some true :=
  ⟨BloomFilter.contains_after_insert_sequence bf v [] h1,
   BloomFilter.contains_after_insert_sequence bf v ws h1,
   CountingBloomFilter.counting_contains_after_insert_sequence cbf v ws h2,
   WLockBloomFilter.wlock_contains_after_insert_sequence wbf v ws h3 hw,
   CountingWLockBloomFilter.counting_wlock_contains_after_insert_sequence cwbf v ws h4 hcw⟩

theorem claim_no_false_negatives_witness :
    (∀ i ∈ (BloomFilter.new 10 (ReHasher.hash_to_indices 2) 2).hash_to_indices
        [104, 101, 108, 108, 111]
        (BloomFilter.new 10 (ReHasher.hash_to_indices 2) 2).num_bits,
      i < (BloomFilter.new 10 (ReHasher.hash_to_indices 2) 2).num_bits) ∧
    ((((BloomFilter.new 10 (ReHasher.hash_to_indices 2) 2).insert
        [104, 101, 108, 108, 111]).insertAll
        [[116, 104, 101, 114, 101]]).contains [104, 101, 108, 108, 111]
      = true) ∧
    ((((WLockBloomFilter.new 10 (ReHasher.hash_to_indices 2) 2).insert
        [104, 101, 108, 108, 111]).bind
        (fun x => x.insertSeq [[116, 104, 101, 114, 101]])).map
        (fun x => x.contains [104, 101, 108, 108, 111]) = some true) :=
  ⟨by decide,
   (claim_no_false_negatives
      (BloomFilter.new 10 (ReHasher.hash_to_indices 2) 2)
      (CountingBloomFilter.new 10 (ReHasher.hash_to_indices 2) 2)
      (WLockBloomFilter.new 10 (ReHasher.hash_to_indices 2) 2)
      (CountingWLockBloomFilter.new 10 (ReHasher.hash_to_indices 2) 2)
      [104, 101, 108, 108, 111] [[116, 104, 101, 114, 101]]
      (by decide) (by decide) (by decide) (by decide) rfl rfl).2.1,
   (claim_no_false_negatives
      (BloomFilter.new 10 (ReHasher.hash_to_indices 2) 2)
      (CountingBloomFilter.new 10 (ReHasher.hash_to_indices 2) 2)
      (WLockBloomFilter.new 10 (ReHasher.hash_to_indices 2) 2)
      (CountingWLockBloomFilter.new 10 (ReHasher.hash_to_indices 2) 2)
      [104, 101, 108, 108, 111] [[116, 104, 101, 114, 101]]
      (by decide) (by decide) (by decide) (by decide) rfl rfl).2.2.2.2⟩

/-- C2: the claim states that optimal_new(n, p) and with_rate(n, p, strategy)
reject p <= 0, p >= 1 and n = 0 with an explicit invalid-parameter error. The
code has no error path at all (both constructors return Self unconditionally):
at the degenerate input p = 1 it silently builds a filter with num_bits() = 0
and k() = 0, which this theorem evaluates. This supports the code-bug verdict
against the spec requirement that such inputs be rejected. -/
theorem claim_degenerate_params_build_zero_filter {α : Type}
    (hti : α → Nat → List Nat) :
    (BloomFilter.optimal_new 2000 1).num_bits = 0 ∧
    (BloomFilter.optimal_new 2000 1).k = 0 ∧
    (BloomFilter.with_rate 2000 1 hti 4).num_bits = 0 := by
  have hm : optimal_m 2000 1 = 0 := by
    unfold optimal_m
    rw [Real.log_one]
    norm_num
  have hk : optimal_k 2000 0 = 0 := by
    unfold optimal_k
    norm_num
  have hwr : m_from_knp 4 2000 1 = 0 := by
    unfold m_from_knp
    rw [Real.one_rpow]
    norm_num [Real.log_zero]
  refine ⟨?_, ?_, ?_⟩
  · show (BloomFilter.new (optimal_m 2000 1)
      (ReHasher.hash_to_indices (optimal_k 2000 (optimal_m 2000 1)))
      (optimal_k 2000 (optimal_m 2000 1))).num_bits = 0
    rw [BloomFilter.num_bits_new, hm]
  · show optimal_k 2000 (optimal_m 2000 1) = 0
    rw [hm, hk]
  · show (BloomFilter.new (m_from_knp 4 2000 1) hti 4).num_bits = 0
    rw [BloomFilter.num_bits_new, hwr]

/-- C3 counterexample: the claim asserts that for every filter the num_bits
value fixed at construction is greater than 0; the crate constructor new
accepts m = 0, so a filter whose construction-fixed bit count is 0 exists. -/
theorem claim_invariants_counterexample :
    ¬ (0 < (BloomFilter.new 0 (ReHasher.hash_to_indices 1) 1).num_bits) := by
  decide

/-- C3 amended: num_bits() stays equal to the value fixed at construction
across every sequence of insert and contains operations, and a set bit stays
set (bits only transition 0 to 1); the construction value is positive exactly
when the filter was built with m > 0, since new performs no validation and
accepts m = 0. Stated for the two filter types with distinct insert code
(the counting wrappers delegate to them). -/
theorem claim_invariants_amended {α : Type} (m kk : Nat)
    (hti : α → Nat → List Nat) (bf : BloomFilter α)
    (wbf : WLockBloomFilter α) (vs : List α) (j : Nat)
    (hbit : bitGet bf.bit_vec j = true)
    (hwbit : bitGet wbf.bit_vec j = true)
    (hw : wbf.is_writing = false) :
    (BloomFilter.new m hti kk).num_bits = m ∧
    (WLockBloomFilter.new m hti kk).num_bits = m ∧
    (0 < m → 0 < (BloomFilter.new m hti kk).num_bits) ∧
    (bf.insertAll vs).num_bits = bf.num_bits ∧
    bitGet (bf.insertAll vs).bit_vec j = true ∧
    (wbf.insertSeq vs).map WLockBloomFilter.num_bits = some wbf.num_bits ∧
    (wbf.insertSeq vs).map (fun w => bitGet w.bit_vec j) = some true := by
  refine ⟨BloomFilter.num_bits_new m hti kk,
    WLockBloomFilter.num_bits_of_new m hti kk, ?_,
    BloomFilter.insertAll_num_bits bf vs, ?_, ?_, ?_⟩
  · intro h
    rw [BloomFilter.num_bits_new]
    exact h
  · rw [BloomFilter.insertAll_eq_fold]
    exact bitGet_foldInserts_mono _ _ _ _ _ hbit
  · rw [WLockBloomFilter.insertSeq_eq_fold _ _ hw]
    show some (WLockBloomFilter.num_bits _) = some wbf.num_bits
    congr 1
    unfold WLockBloomFilter.num_bits
    rw [length_foldInserts]
  · rw [WLockBloomFilter.insertSeq_eq_fold _ _ hw]
    show some (bitGet _ j) = some true
    congr 1
    exact bitGet_foldInserts_mono _ _ _ _ _ hwbit

theorem claim_invariants_amended_witness :
    bitGet ((BloomFilter.new 5 (ReHasher.hash_to_indices 1) 1).insert
      [97]).bit_vec 2 = true ∧
    bitGet (WLockBloomFilter.mk [false, false, true, false, false] false
      (ReHasher.hash_to_indices 1) 1).bit_vec 2 = true ∧
    (((BloomFilter.new 5 (ReHasher.hash_to_indices 1) 1).insert
      [97]).insertAll [[108]]).num_bits =
      ((BloomFilter.new 5 (ReHasher.hash_to_indices 1) 1).insert
        [97]).num_bits ∧
    bitGet ((((BloomFilter.new 5 (ReHasher.hash_to_indices 1) 1).insert
      [97]).insertAll [[108]])).bit_vec 2 = true ∧
    ((WLockBloomFilter.mk [false, false, true, false, false] false
      (ReHasher.hash_to_indices 1) 1).insertSeq [[108]]).map
      (fun w => bitGet w.bit_vec 2) = some true := by
  have h := claim_invariants_amended 5 1 (ReHasher.hash_to_indices 1)
    ((BloomFilter.new 5 (ReHasher.hash_to_indices 1) 1).insert [97])
    (WLockBloomFilter.mk [false, false, true, false, false] false
      (ReHasher.hash_to_indices 1) 1)
    [[108]] 2 (by decide) (by decide) rfl
  exact ⟨by decide, by decide, h.2.2.2.1, h.2.2.2.2.1, h.2.2.2.2.2.2⟩

/-- C4: for every non-counting filter, every value v and every starting
state, inserting v twice leaves the bit vector and all subsequent contains
results identical to inserting v once; for the counting wrappers the counter
nevertheless increases on the duplicate insert (by two over the starting
count after the two calls) while their filter state is the same as after one
insert. -/
theorem claim_insert_idempotent {α : Type} (bf : BloomFilter α)
    (cbf : CountingBloomFilter α) (wbf : WLockBloomFilter α)
    (cwbf : CountingWLockBloomFilter α) (v w : α)
    (hw : wbf.is_writing = false)
    (hcw : cwbf.bloom_filter.is_writing = false) :
    (bf.insert v).insert v = bf.insert v ∧
    ((bf.insert v).insert v).contains w = (bf.insert v).contains w ∧
    ((wbf.insert v).bind (fun x => x.insert v)) = wbf.insert v ∧
    ((cbf.insert v).insert v).bloom_filter = (cbf.insert v).bloom_filter ∧
    ((cbf.insert v).insert v).count = cbf.count + 2 ∧
    ((cwbf.insert v).bind (fun x => x.insert v)).map
      CountingWLockBloomFilter.bloom_filter =
      (cwbf.insert v).map CountingWLockBloomFilter.bloom_filter ∧
    ((cwbf.insert v).bind (fun x => x.insert v)).map
      CountingWLockBloomFilter.count = some (cwbf.count + 2) := by
  have hidem := BloomFilter.insert_insert_same bf v
  have hxx : ∀ X : WLockBloomFilter α,
      cwbf.bloom_filter.insert v = some X → X.insert v = some X := by
    intro X hX
    have h := WLockBloomFilter.insert_bind_insert_same cwbf.bloom_filter v hcw
    rw [hX] at h
    exact h
  have hfirst := WLockBloomFilter.insert_of_free cwbf.bloom_filter v hcw
  refine ⟨hidem, by rw [hidem], WLockBloomFilter.insert_bind_insert_same wbf v hw,
    ?_, ?_, ?_, ?_⟩
  · show (cbf.bloom_filter.insert v).insert v = cbf.bloom_filter.insert v
    exact BloomFilter.insert_insert_same cbf.bloom_filter v
  · show cbf.count + 1 + 1 = cbf.count + 2
    omega
  · unfold CountingWLockBloomFilter.insert
    rw [hfirst]
    simp only [Option.map_some', Option.some_bind]
    rw [hxx _ hfirst]
    simp only [Option.map_some']
  · unfold CountingWLockBloomFilter.insert
    rw [hfirst]
    simp only [Option.map_some', Option.some_bind]
    rw [hxx _ hfirst]
    simp only [Option.map_some', Option.some.injEq]

theorem claim_insert_idempotent_witness :
    (WLockBloomFilter.new 7 (ReHasher.hash_to_indices 2) 2).is_writing
        = false ∧
    (((BloomFilter.new 7 (ReHasher.hash_to_indices 2) 2).insert
        [97]).insert [97] =
      (BloomFilter.new 7 (ReHasher.hash_to_indices 2) 2).insert [97]) ∧
    (((CountingBloomFilter.new 7 (ReHasher.hash_to_indices 2) 2).insert
        [97]).insert [97]).count =
      (CountingBloomFilter.new 7 (ReHasher.hash_to_indices 2) 2).count + 2 :=
  ⟨rfl,
   (claim_insert_idempotent
      (BloomFilter.new 7 (ReHasher.hash_to_indices 2) 2)
      (CountingBloomFilter.new 7 (ReHasher.hash_to_indices 2) 2)
      (WLockBloomFilter.new 7 (ReHasher.hash_to_indices 2) 2)
      (CountingWLockBloomFilter.new 7 (ReHasher.hash_to_indices 2) 2)
      [97] [108] rfl rfl).1,
   (claim_insert_idempotent
      (BloomFilter.new 7 (ReHasher.hash_to_indices 2) 2)
      (CountingBloomFilter.new 7 (ReHasher.hash_to_indices 2) 2)
      (WLockBloomFilter.new 7 (ReHasher.hash_to_indices 2) 2)
      (CountingWLockBloomFilter.new 7 (ReHasher.hash_to_indices 2) 2)
      [97] [108] rfl rfl).2.2.2.2.1⟩

/-- C5: the parameter calculator returns the reference constants of the crate
test suite: optimal_m(2000, 0.001) = 28756, optimal_k(2000, 28756) = 10 with
the integer division 28756 / 2000 = 14 truncating before the multiplication
by ln 2, m_from_knp(4, 1000, false_positive_rate(4, 1000, 10000)) = 10000,
and with_rate(1000, 0.0001, strategy with k = 4) builds a filter with
num_bits() = 37964. The f64 arithmetic is idealised as exact real arithmetic;
every value proved here is bounded away from the rounding boundaries by many
orders of magnitude more than the f64 error, except the exact round trip to
10000, where the real value is exactly the integer and the crate test pins
the same result. -/
theorem claim_parameter_reference_values :
    optimal_m 2000 (1/1000) = 28756 ∧
    optimal_k 2000 28756 = 10 ∧
    m_from_knp 4 1000 (false_positive_rate 4 1000 10000) = 10000 ∧
    (BloomFilter.with_rate 1000 (1/10000)
      (ReHasher.hash_to_indices 4) 4).num_bits = 37964 := by
  refine ⟨optimal_m_ref, optimal_k_ref, m_from_knp_roundtrip, ?_⟩
  show (BloomFilter.new (m_from_knp 4 1000 (1/10000))
    (ReHasher.hash_to_indices 4) 4).num_bits = 37964
  rw [BloomFilter.num_bits_new, m_from_knp_ref]

/-- C6: the chained ReHasher over the MurmurHash-family digest maps the value
hello (bytes 104 101 108 108 111) with k = 3 and modulus 1000 to exactly
[26, 16, 434]; with k = 4 the same chain extends to [26, 16, 434, 927]; and
the value there (bytes 116 104 101 114 101) with k = 4 maps to
[774, 836, 27, 178]. -/
theorem claim_rehasher_reference_vectors :
    ReHasher.hash_to_indices 3 [104, 101, 108, 108, 111] 1000 =
      [26, 16, 434] ∧
    ReHasher.hash_to_indices 4 [104, 101, 108, 108, 111] 1000 =
      [26, 16, 434, 927] ∧
    ReHasher.hash_to_indices 4 [116, 104, 101, 114, 101] 1000 =
      [774, 836, 27, 178] :=
  ⟨by decide, by decide, by decide⟩

/-- C7: for a counting filter of fixed size the false-positive estimate is
non-decreasing over any sequence of inserts: the counter starts at 0 at
construction, each insert adds exactly 1 to it (also on duplicates), the
ideal rate (1 - e^(-k n / m))^k is non-decreasing in n for fixed k and
m > 0, and therefore false_positive_chance never decreases across a sequence
of inserts on a filter with k > 0 hash rounds and m > 0 bits. -/
theorem claim_fpc_monotone {α : Type} (m kk : Nat)
    (hti : α → Nat → List Nat) (cbf : CountingBloomFilter α) (v : α)
    (vs : List α) (_hk : 0 < cbf.bloom_filter.k) (hm : 0 < cbf.num_bits) :
    (CountingBloomFilter.new m hti kk).count = 0 ∧
    (cbf.insert v).count = cbf.count + 1 ∧
    (∀ n n₂ : Nat, n ≤ n₂ →
      false_positive_rate cbf.bloom_filter.k n cbf.num_bits ≤
        false_positive_rate cbf.bloom_filter.k n₂ cbf.num_bits) ∧
    cbf.false_positive_chance ≤ (cbf.insertAll vs).false_positive_chance :=
  ⟨rfl, rfl,
   fun n n₂ hn => false_positive_rate_mono cbf.bloom_filter.k cbf.num_bits
     n n₂ hm hn,
   CountingBloomFilter.fpc_mono cbf vs hm⟩

theorem claim_fpc_monotone_witness :
    0 < (CountingBloomFilter.new 100
        (ReHasher.hash_to_indices 1) 1).bloom_filter.k ∧
    0 < (CountingBloomFilter.new 100
        (ReHasher.hash_to_indices 1) 1).num_bits ∧
    (CountingBloomFilter.new 100
      (ReHasher.hash_to_indices 1) 1).false_positive_chance ≤
      ((CountingBloomFilter.new 100
        (ReHasher.hash_to_indices 1) 1).insertAll
        [[97], [108]]).false_positive_chance :=
  ⟨by decide, by decide,
   (claim_fpc_monotone 100 1 (ReHasher.hash_to_indices 1)
      (CountingBloomFilter.new 100 (ReHasher.hash_to_indices 1) 1)
      [97] [[97], [108]] (by decide) (by decide)).2.2.2⟩

/-- C8: for every set of values partitioned arbitrarily across per-thread
queues that insert concurrently into one shared WLockBloomFilter, the final
bit field of any schedule (any order in which the threads can acquire the
spinlock, preserving each queue order) equals the bit field obtained by
inserting the full value set sequentially. The model serialises each insert
at the granularity the spinlock enforces: hashing is pure and num_bits is
constant, so an interleaved execution is a fold of atomic bit-set batches in
lock-acquisition order. -/
theorem claim_concurrent_union {α : Type} (wbf : WLockBloomFilter α)
    (qs : List (List α)) (s vs : List α)
    (hs : Schedule qs s) (hp : qs.flatten.Perm vs)
    (hw : wbf.is_writing = false) :
    (wbf.insertSeq vs).map WLockBloomFilter.bit_vec =
      some (wbf.scheduleRun s) := by
  rw [WLockBloomFilter.insertSeq_eq_fold _ _ hw]
  show some _ = some _
  congr 1
  unfold WLockBloomFilter.scheduleRun
  exact (foldInserts_perm _ _ (hs.perm_flatten.trans hp) _).symm

theorem claim_concurrent_union_witness :
    Schedule ([[[104]], [[108]]] : List (List (List Nat)))
      [[108], [104]] ∧
    ((WLockBloomFilter.new 5 (ReHasher.hash_to_indices 1) 1).insertSeq
      [[104], [108]]).map WLockBloomFilter.bit_vec =
      some ((WLockBloomFilter.new 5
        (ReHasher.hash_to_indices 1) 1).scheduleRun [[108], [104]]) := by
  have hs : Schedule ([[[104]], [[108]]] : List (List (List Nat)))
      [[108], [104]] := by
    refine Schedule.step 1 [108] rfl ?_
    refine Schedule.step 0 [104] rfl ?_
    exact Schedule.done (by decide)
  refine ⟨hs, ?_⟩
  exact claim_concurrent_union
    (WLockBloomFilter.new 5 (ReHasher.hash_to_indices 1) 1)
    [[[104]], [[108]]] [[108], [104]] [[104], [108]]
    hs (by decide) rfl

/-- C9: for every hash strategy, bit count m and arity k, and every
single-threaded sequence of insert and contains calls, a WLockBloomFilter
constructed with new(m, strategy) returns exactly the same contains results
and reaches exactly the same bit-vector state as a sequential BloomFilter
constructed with the same arguments, and none of its inserts spins. -/
theorem claim_wlock_refines_sequential {α : Type} (m kk : Nat)
    (hti : α → Nat → List Nat) (ops : List (FilterOp α)) :
    ((WLockBloomFilter.new m hti kk).runOps ops).map
      (fun p => (p.1.bit_vec, p.2)) =
      some (((BloomFilter.new m hti kk).runOps ops).1.bit_vec,
        ((BloomFilter.new m hti kk).runOps ops).2) :=
  runOps_bisim ops (BloomFilter.new m hti kk)
    (WLockBloomFilter.new m hti kk) rfl rfl rfl

/-- C10: the constructor new(0, strategy) is accepted without any error (the
m > 0 invariant is not enforced) and yields a filter with num_bits() = 0; on
that filter every insert or contains call whose strategy produces at least
one digest output (k at least 1) panics in Rust, because each output is
reduced modulo num_bits() = 0; the panic-aware embedding accordingly returns
none instead of a value for both operations. -/
theorem claim_zero_bits_panics {α : Type} (raws : α → List Nat) (v : α)
    (h : 1 ≤ (raws v).length) :
    (ModBloomFilter.new 0 raws).num_bits = 0 ∧
    (ModBloomFilter.new 0 raws).insert v = none ∧
    (ModBloomFilter.new 0 raws).contains v = none :=
  ⟨rfl, ModBloomFilter.insert_zero_none raws v h,
   ModBloomFilter.contains_zero_none raws v h⟩

theorem claim_zero_bits_panics_witness :
    1 ≤ ((fun b => rehashFinishes b [] 1) ([104] : List Nat)).length ∧
    (ModBloomFilter.new 0 (fun b => rehashFinishes b [] 1)).insert
      ([104] : List Nat) = none ∧
    (ModBloomFilter.new 0 (fun b => rehashFinishes b [] 1)).contains
      ([104] : List Nat) = none :=
  ⟨by decide,
   (claim_zero_bits_panics (fun b => rehashFinishes b [] 1) [104]
     (by decide)).2.1,
   (claim_zero_bits_panics (fun b => rehashFinishes b [] 1) [104]
     (by decide)).2.2⟩
